import Mathlib

/-!
# Verification of the fixed-basis MSM engine (go-ipa)

Shallow embedding of the hybrid fixed-basis multi-scalar-multiplication engine:
the windowed precomputed-table scalar multiplication (`PrecompPoint`), the
Pippenger bucket worker (`doWork`), the engine constructors (`New`) and the
`MSM` dispatch, together with the partition arithmetic of the parallel
precomp path (`msmPrecomp`).

Curve arithmetic is abstracted by an additive commutative group `G`
(the curve primitives are external collaborators of the engine): `PointProj`
and `PointAffine` values are elements of `G`, `Identity` is `0`, `Add` and
`MixedAdd` are `+`, `Neg` is negation, and `ScalarMul` by a field element of
value `q` is `q • ·`.  Scalars of 𝔽_r are embedded as naturals in standard
(non-Montgomery) form — the form the code obtains with `FromMont` before any
digit extraction — and the 4×64-bit little-endian limb representation is
recovered arithmetically (`limb`).  Go's wrap-around integers appear as `Nat`
with explicit `% 2^w`, and Go runtime faults (index/slicing/division) are
made explicit as `panics` outcomes where the control flow can reach them.
-/
set_option maxRecDepth 16000

namespace GoIpa

/-! ## Definitions -/

/-- Modelled from the spec: the modulus `r` of the scalar field 𝔽_r (the `fr`
collaborator package of the engine; its sources are not part of the embedded
files).  Scalars handed to `MSM` are field elements, i.e. values `< rMod`. -/
def rMod : Nat :=
  13108968793781547619861935127046491459309155893440570251786403306729687672801

/-- Limb `l` of the little-endian 4×64-bit representation of scalar `s`:
`scalar[l]` in the Go sources (a `uint64`). -/
def limb (s l : Nat) : Nat := s / 2 ^ (64 * l) % 2 ^ 64

/-- Window read `(scalar[l] >> (c*w)) & ((1<<c)-1)`: the `w`-th `c`-bit window of limb `l`. -/
def winL (c s l w : Nat) : Nat := limb s l / 2 ^ (c * w) % 2 ^ c

/-- The flat window indices `l*K + w` visited by the first `l` iterations of
the nested loops `for limbIndex ...` / `for w ...` of the recoding consumers,
where `K = 64/windowSize` is the number of windows per limb. -/
def limbWindowIdxs (K : Nat) : Nat → List Nat
  | 0 => []
  | l + 1 => limbWindowIdxs K l ++ (List.range K).map fun w => l * K + w

/-- All flat window indices visited by the nested recoding loops
(`fr.Limbs = 4` limbs of `K = 64/windowSize` windows each). -/
def flatWindows (K : Nat) : List Nat := limbWindowIdxs K 4

/-- Comparison `windowValue > 1<<(pp.windowSize-1)`: the sign test used by
`PrecompPoint.ScalarMul` (strict). -/
def negGt (c raw : Nat) : Bool := decide (1 <<< (c - 1) < raw)

/-- Comparison `windowValue >= (1 << (msm.windowSize - 1))`: the sign test used by the
Pippenger worker `doWork` (non-strict). -/
def negGe (c raw : Nat) : Bool := decide (1 <<< (c - 1) ≤ raw)

/-- Signed-digit recoding of a list of `c`-bit window values with carry
propagation, parameterised by the sign test (`negGt c` for `ScalarMul`,
`negGe c` for `doWork`).  Returns the emitted signed digits (`0` for a
skipped window) and the final carry. -/
def recodeW (c : Nat) (negAt : Nat → Bool) : List Nat → Nat → List ℤ × Nat
  | [], carry => ([], carry)
  | v :: vs, carry =>
    let raw := v + carry
    if raw = 0 then
      let r := recodeW c negAt vs carry
      ((0 : ℤ) :: r.1, r.2)
    else if negAt raw then
      let r := recodeW c negAt vs 1
      (((raw : ℤ) - 2 ^ c) :: r.1, r.2)
    else
      let r := recodeW c negAt vs 0
      ((raw : ℤ) :: r.1, r.2)

/-- Value of a signed-digit string in base `2^c` (little-endian). -/
def wdig (c : Nat) : List ℤ → ℤ
  | [] => 0
  | d :: ds => d + 2 ^ c * wdig c ds

/-- Value of a window-value string in base `2^c` (little-endian). -/
def wval (c : Nat) : List Nat → Nat
  | [] => 0
  | v :: vs => v + 2 ^ c * wval c vs

/-- The `W` base-`2^c` windows of `s`, least significant first. -/
def windowList (c : Nat) : Nat → Nat → List Nat
  | 0, _ => []
  | W + 1, s => s % 2 ^ c :: windowList c W (s / 2 ^ c)

/-- Type `PrecompPoint` of `pipfixedbasis/precomp.go`: a window size and the
`256/windowSize` windows of `2^(windowSize-1)` affine points each. -/
structure PrecompPoint (G : Type) where
  windowSize : Nat
  windows : List (List G)

section GroupDefs

variable {G : Type} [AddCommGroup G]

/-- Inner loop of `NewPrecompPoint`:
`curr := base; for j { res.windows[i][j] = curr; curr.Add(&curr, &base) }`. -/
def fillWindow (base : G) : Nat → G → List G
  | 0, _ => []
  | n + 1, curr => curr :: fillWindow base n (curr + base)

/-- Outer loop of `NewPrecompPoint` over the window index `i`; after
launching window `i` the Go code advances
`point.ScalarMul(&point, &specialWindow)` with `specialWindow = 1<<windowSize`,
so iteration `i` starts from `specialWindow^i • point`. -/
def buildWindows (specialWindow windowSize : Nat) : Nat → G → List (List G)
  | 0, _ => []
  | n + 1, point =>
    fillWindow point (1 <<< (windowSize - 1)) point
      :: buildWindows specialWindow windowSize n (specialWindow • point)

/-- Constructor `NewPrecompPoint(point, windowSize)` of `pipfixedbasis/precomp.go`. -/
def NewPrecompPoint (point : G) (windowSize : Nat) : PrecompPoint G :=
  { windowSize := windowSize
    windows := buildWindows (1 <<< windowSize) windowSize (256 / windowSize) point }

/-- Loop body of `PrecompPoint.ScalarMul`, iterating over the flat window
indices `j` (the Go code iterates limb `l = j / K` and sub-window `w = j % K`
with `K = 64/windowSize` windows per limb and indexes the table with
`l*numWindowsInLimb+w`).  In the negative branch the Go code replaces
`windowValue` by `(1 << windowSize) - windowValue` and skips the mixed-add
when that is zero, still setting `carry = 1`. -/
def scalarMulGo (c : Nat) (tbl : List (List G)) (s : Nat) :
    List Nat → Nat → G → G
  | [], _, acc => acc
  | j :: rest, carry, acc =>
    let K := 64 / c
    let windowValue := winL c s (j / K) (j % K) + carry
    if windowValue = 0 then scalarMulGo c tbl s rest carry acc
    else if negGt c windowValue then
      let windowValue2 := 2 ^ c - windowValue
      scalarMulGo c tbl s rest 1
        (if windowValue2 ≠ 0 then
          acc + -((tbl.getD (j / K * K + j % K) []).getD (windowValue2 - 1) 0)
        else acc)
    else
      scalarMulGo c tbl s rest 0
        (acc + (tbl.getD (j / K * K + j % K) []).getD (windowValue - 1) 0)

/-- Method `(pp *PrecompPoint) ScalarMul(scalar, res)`: adds `scalar·P` into the
projective accumulator `res` (the Go method takes `scalar` by value, so the
caller's element is not mutated; `FromMont` happens on the local copy and is
the identity in this standard-form embedding). -/
def PrecompPoint.ScalarMul (pp : PrecompPoint G) (scalar : Nat) (res : G) : G :=
  scalarMulGo pp.windowSize pp.windows scalar (flatWindows (64 / pp.windowSize)) 0 res

/-- Weighted sum `∑_{k} k·B[k]` over a bucket list (index 0 contributes nothing):
`wsumFrom t [b₀, b₁, …] = t•b₀ + (t+1)•b₁ + …`. -/
def wsumFrom : Nat → List G → G
  | _, [] => 0
  | t, x :: rest => t • x + wsumFrom (t + 1) rest

/-- Weighted sum `∑_{k=1..len-1} k·B[k]`: the weighted bucket sum the reduction must produce. -/
def weightedBucketSum (buckets : List G) : G := wsumFrom 1 (buckets.drop 1)

/-- The worker's bucket array: `1<<(windowSize-1) + 1` projective points,
initialised to the identity. -/
def initBuckets (c : Nat) : List G := List.replicate (1 <<< (c - 1) + 1) 0

/-- Per-scalar bucket accumulation of `doWork` over the flat window indices,
with carry (`windowValue >= 1<<(c-1)` triggers the negative branch: the code
sets `windowValue -= 1<<c`, negates the ladder point into `pNeg` and adds it
into bucket `-windowValue = 2^c - windowValue`, setting `carry = 1`). -/
def doWorkScalarGo (c : Nat) (ladder : List G) (s : Nat) :
    List Nat → Nat → List G → List G
  | [], _, buckets => buckets
  | j :: rest, carry, buckets =>
    let K := 64 / c
    let windowValue := winL c s (j / K) (j % K) + carry
    if windowValue = 0 then doWorkScalarGo c ladder s rest carry buckets
    else if negGe c windowValue then
      let idx := 2 ^ c - windowValue
      doWorkScalarGo c ladder s rest 1
        (buckets.set idx (buckets.getD idx 0 + -(ladder.getD (j / K * K + j % K) 0)))
    else
      doWorkScalarGo c ladder s rest 0
        (buckets.set windowValue
          (buckets.getD windowValue 0 + ladder.getD (j / K * K + j % K) 0))

/-- The scalar loop of `doWork` over `(points[i], scalars[i])` pairs;
part_002 skips zero scalars (`scalar.IsZero()`). -/
def doWorkBuckets (c : Nat) : List (List G × Nat) → List G → List G
  | [], buckets => buckets
  | (ladder, s) :: rest, buckets =>
    if s = 0 then doWorkBuckets c rest buckets
    else doWorkBuckets c rest (doWorkScalarGo c ladder s (flatWindows (64 / c)) 0 buckets)

/-- The point-power ladder built by `New`:
`pointsPowers[i][0] = P`, `pointsPowers[i][j] = pointsPowers[i][j-1] * 2^c`. -/
def powersLadder (q : Nat) : Nat → G → List G
  | 0, _ => []
  | n + 1, p => p :: powersLadder q n (q • p)

/-- Reference MSM: `∑ sᵢ • Pᵢ`. -/
def msmSpec (scalars : List Nat) (Ps : List G) : G :=
  (List.zipWith (fun s P => s • P) scalars Ps).sum

variable [DecidableEq G]

/-- The running-sum loop
`for k := len(buckets)-1; k >= 1; k-- { if !B[k].IsIdentity() { tmp.Add(tmp,B[k]) }; result.Add(result,tmp) }`,
processing the bucket values in decreasing index order. -/
def runningSumGo : List G → G → G → G
  | [], _, result => result
  | b :: rest, tmp, result =>
    let tmp2 := if ¬b = 0 then tmp + b else tmp
    runningSumGo rest tmp2 (result + tmp2)

/-- Bucket reduction of `doWork`: the running-sum trick over buckets
`len-1` down to `1`, starting from `tmp = result = identity`. -/
def reduceBuckets (buckets : List G) : G :=
  runningSumGo (buckets.drop 1).reverse 0 0

/-- Worker `doWork(points, scalars, results)`: bucket accumulation over the shard
followed by the running-sum reduction; the value it sends on the channel. -/
def doWork (c : Nat) (points : List (List G)) (scalars : List Nat) : G :=
  reduceBuckets (doWorkBuckets c (points.zip scalars) (initBuckets c))

end GroupDefs

/-- Mixed-addition counter of the `ScalarMul` loop: mirrors the branch
structure of `scalarMulGo` and counts one `MixedAdd` per non-skipped window. -/
def scalarMulCountGo (c : Nat) (s : Nat) : List Nat → Nat → Nat → Nat
  | [], _, cnt => cnt
  | j :: rest, carry, cnt =>
    let K := 64 / c
    let windowValue := winL c s (j / K) (j % K) + carry
    if windowValue = 0 then scalarMulCountGo c s rest carry cnt
    else if negGt c windowValue then
      scalarMulCountGo c s rest 1 (if 2 ^ c - windowValue ≠ 0 then cnt + 1 else cnt)
    else scalarMulCountGo c s rest 0 (cnt + 1)

/-- Number of mixed additions performed by `PrecompPoint.ScalarMul` on
scalar `s` with window width `c`. -/
def scalarMulAddCount (c s : Nat) : Nat :=
  scalarMulCountGo c s (flatWindows (64 / c)) 0 0

/-- Outcome of a Go function that can return a value, return an error, or
fault at runtime (index/slice/division faults are Go run-time panics). -/
inductive NewOutcome (E : Type) where
  | ok (engine : E)
  | err (msg : String)
  | panics (msg : String)

def NewOutcome.isOk {E : Type} : NewOutcome E → Bool
  | .ok _ => true
  | _ => false

def NewOutcome.engineOr {E : Type} (d : E) : NewOutcome E → E
  | .ok e => e
  | _ => d

namespace Bander2

/-- Type `MSMFixedBasis` of the 256-point `bandersnatch` variant: the
`pointsPowers` field is a fixed-size `[256][]PointAffine` array. -/
structure MSMFixedBasis (G : Type) where
  windowSize : Nat
  windowMask : Nat
  numWindows : Nat
  pointsPowers : List (List G)

/-- Constructor `New(points, windowSize)` of that variant.  It checks only
`len(points) > 256` and `windowSize > fieldSizeBits`; afterwards
`numWindows := fieldSizeBits / windowSize` is a Go division-by-zero panic for
`windowSize = 0`, and `frQ.SetUint64(1 << windowSize)` is a Go
negative-shift panic for `windowSize < 0`.  The fixed array keeps nil
slices (`[]`) for indices beyond `len(points)`. -/
def New {G : Type} [AddCommGroup G] (points : List G) (windowSize : ℤ) :
    NewOutcome (MSMFixedBasis G) :=
  if points.length > 256 then .err "max msm length is 256"
  else if windowSize > 256 then .err "c must be less than field size"
  else if windowSize = 0 then .panics "integer divide by zero"
  else if windowSize < 0 then .panics "negative shift amount"
  else
    .ok { windowSize := windowSize.toNat
          windowMask := 2 ^ windowSize.toNat - 1
          numWindows := 256 / windowSize.toNat
          pointsPowers := (List.range 256).map fun i =>
            if i < points.length
            then powersLadder (1 <<< windowSize.toNat % 2 ^ 64) (256 / windowSize.toNat)
                   (points.getD i 0)
            else [] }

/-- The scalar-count guard of `MSM`:
`if len(scalars) > len(msm.pointsPowers) { return PointProj{}, errors.New(...) }` —
the comparison is against the fixed array length (always 256), not against
the number of points supplied to `New`. -/
def MSMErr {G : Type} (e : MSMFixedBasis G) (scalars : List Nat) : Option String :=
  if scalars.length > e.pointsPowers.length then some "more scalars than accepted" else none

end Bander2

namespace Pip256

/-- Type `MSMFixedBasis` of part_002 (`precompNumPoints = 256`,
`pipperMsmLength = 0`, so `pointsPowers` is an empty array). -/
structure Engine (G : Type) where
  windowSize : Nat
  windowMask : Nat
  numWindows : Nat
  pointsPowers : List (List G)
  precompPoints : List (PrecompPoint G)

/-- Constructor `New` of part_002: the two guards, then
`numWindows := fieldSizeBits / windowSize` (divide-by-zero panic at 0),
`frQ.SetUint64(1 << windowSize)` (negative-shift panic below 0), the slice
expression `points[precompNumPoints:]` (slice-bounds panic when
`len(points) < 256`), and the 256 precomp tables: width 16 for the first 5
points, width 8 for the rest. -/
def New {G : Type} [AddCommGroup G] (points : List G) (windowSize : ℤ) :
    NewOutcome (Engine G) :=
  if points.length > 256 then .err "max msm length is 256"
  else if windowSize > 256 then .err "c must be less than field size"
  else if windowSize = 0 then .panics "integer divide by zero"
  else if windowSize < 0 then .panics "negative shift amount"
  else if points.length < 256 then .panics "slice bounds out of range"
  else
    .ok { windowSize := windowSize.toNat
          windowMask := 2 ^ windowSize.toNat - 1
          numWindows := 256 / windowSize.toNat
          pointsPowers := []
          precompPoints := (List.range 256).map fun i =>
            NewPrecompPoint (points.getD i 0) (if i < 5 then 16 else 8) }

/-- Constant `minScalarsPerRoutine` of `msmPrecomp`. -/
def minScalarsPerRoutine : Nat := 4

/-- Value `numBatches := (count + 3) / 4`, capped at `runtime.NumCPU()`
(only reached when `count > minScalarsPerRoutine`). -/
def numBatches (count numCPU : Nat) : Nat :=
  let nb := (count + minScalarsPerRoutine - 1) / minScalarsPerRoutine
  if nb > numCPU then numCPU else nb

/-- Value `batchSize := (count + numBatches - 1) / numBatches`. -/
def batchSize (count numCPU : Nat) : Nat :=
  (count + numBatches count numCPU - 1) / numBatches count numCPU

/-- The bitset of nonzero scalars (`set.Set(i)` for `!scalars[i].IsZero()`). -/
def activeSet (scalars : List Nat) : List Bool := scalars.map fun s => decide (¬s = 0)

/-- Count `set.Count()`: the number of nonzero scalars. -/
def setCount (scalars : List Nat) : Nat := (activeSet scalars).count true

/-- Inner loop of the partition of `msmPrecomp`:
`for size < batchSize && end < len(scalars) { if set.Test(end) { size++ }; end++ }` —
consume indices until `batchSize` active ones were collected or the scalar
list is exhausted; returns the unconsumed suffix. -/
def takeChunk (bSize : Nat) : Nat → List Bool → List Bool
  | _, [] => []
  | size, a :: rest =>
    if size < bSize then takeChunk bSize (size + if a then 1 else 0) rest
    else a :: rest

/-- Number of iterations of the spawn loop
`for start := 0; start < len(scalars); { …; go …; start = end }` — one worker
goroutine is spawned per iteration.  Fuel-bounded by the list length (each
iteration consumes at least one index when `bSize ≥ 1`). -/
def chunkCountAux (bSize : Nat) : Nat → List Bool → Nat
  | _, [] => 0
  | 0, _ :: _ => 0
  | fuel + 1, a :: rest => 1 + chunkCountAux bSize fuel (takeChunk bSize 0 (a :: rest))

/-- Number of worker goroutines spawned by the partition loop. -/
def chunkCount (bSize : Nat) (active : List Bool) : Nat :=
  chunkCountAux bSize active.length active

end Pip256

/-- Projective point as raw coordinates, used to state what `MSM` returns
alongside an error (the Go zero value `PointProj{}` has all fields zero). -/
structure PointProj where
  X : Nat
  Y : Nat
  Z : Nat

/-- The Go zero value `PointProj{}`. -/
def zeroPointProj : PointProj := ⟨0, 0, 0⟩

/-- Modelled from the spec: validity of a projective representative of the
curve collaborator G (the curve point sources are outside the embedded
files).  A projective triple represents a group element only when `Z ≠ 0`;
in particular every representative of the group identity has `Z ≠ 0`. -/
def validRep (p : PointProj) : Prop := p.Z ≠ 0

/-- The `MSM` entry point shape shared by the engine variants: the scalar
count guard returns `(PointProj{}, error)` before any computation; otherwise
the MSM body runs on the scalars.  `body` stands for the precomp/Pippenger
combination that follows the guard. -/
def MSMTop (body : List Nat → PointProj) (scalars : List Nat) : PointProj × Option String :=
  if scalars.length > 256 then (zeroPointProj, some "more scalars than accepted")
  else (body scalars, none)

/-- Default engine value for extracting the engine from a `NewOutcome`. -/
def dummyEngine (G : Type) : Bander2.MSMFixedBasis G := ⟨0, 0, 0, []⟩

/-! ## Theorems -/

theorem rMod_lt_two_pow_253 : rMod < 2 ^ 253 := by decide

theorem windowList_length (c : Nat) : ∀ W s, (windowList c W s).length = W := by
  intro W
  induction W with
  | zero => intro s; rfl
  | succ n ih => intro s; simp [windowList, ih]

theorem wval_windowList (c : Nat) : ∀ W s, wval c (windowList c W s) = s % 2 ^ (c * W) := by
  intro W
  induction W with
  | zero => intro s; simp [windowList, wval, Nat.mod_one]
  | succ n ih =>
    intro s
    have h : (2 : Nat) ^ (c * (n + 1)) = 2 ^ c * 2 ^ (c * n) := by
      rw [← pow_add]; ring_nf
    rw [windowList, wval, ih, h, Nat.mod_mul]

theorem recodeW_length (c : Nat) (negAt : Nat → Bool) :
    ∀ vs carry, (recodeW c negAt vs carry).1.length = vs.length := by
  intro vs
  induction vs with
  | nil => intro carry; rfl
  | cons v vs ih =>
    intro carry
    simp only [recodeW]
    split
    · simp [ih]
    · split <;> simp [ih]

/-- The recoded digits, plus the final carry at weight `(2^c)^|vs|`, represent
exactly the raw window string plus the incoming carry. -/
theorem recodeW_val (c : Nat) (negAt : Nat → Bool) :
    ∀ (vs : List Nat) (carry : Nat),
      wdig c (recodeW c negAt vs carry).1
        + ((2 : ℤ) ^ c) ^ vs.length * ((recodeW c negAt vs carry).2 : ℤ)
        = (wval c vs : ℤ) + carry := by
  intro vs
  induction vs with
  | nil => intro carry; simp [recodeW, wdig, wval]
  | cons v vs ih =>
    intro carry
    simp only [recodeW, wval, List.length_cons]
    split
    · rename_i hraw
      have hv : v = 0 := by omega
      have hc : carry = 0 := by omega
      subst hv
      subst hc
      have h := ih 0
      simp only [wdig]
      push_cast at h ⊢
      linear_combination ((2 : ℤ) ^ c) * h
    · split
      · have h := ih 1
        simp only [wdig]
        push_cast at h ⊢
        linear_combination ((2 : ℤ) ^ c) * h
      · have h := ih 0
        simp only [wdig]
        push_cast at h ⊢
        linear_combination ((2 : ℤ) ^ c) * h

/-- Carries stay in `{0,1}`. -/
theorem recodeW_carry_le (c : Nat) (negAt : Nat → Bool) :
    ∀ (vs : List Nat) (carry : Nat), carry ≤ 1 → (recodeW c negAt vs carry).2 ≤ 1 := by
  intro vs
  induction vs with
  | nil => intro carry h; exact h
  | cons v vs ih =>
    intro carry h
    simp only [recodeW]
    split
    · exact ih carry h
    · split
      · exact ih 1 (by omega)
      · exact ih 0 (by omega)

/-- If the sign test rejects both possible raw values of the top window, the
final carry is absorbed (equals zero). -/
theorem recodeW_fc_zero (c : Nat) (negAt : Nat → Bool) :
    ∀ (vs : List Nat) (carry vtop : Nat), vs.getLast? = some vtop → carry ≤ 1 →
      negAt vtop = false → negAt (vtop + 1) = false →
      (recodeW c negAt vs carry).2 = 0 := by
  intro vs
  induction vs with
  | nil => intro carry vtop h; simp at h
  | cons v vs ih =>
    intro carry vtop hlast hcarry h1 h2
    cases vs with
    | nil =>
      simp at hlast
      subst hlast
      simp only [recodeW]
      split
      · rename_i hraw; simp [recodeW]; omega
      · split
        · rename_i hneg
          exfalso
          interval_cases carry
          · simp only [Nat.add_zero, h1] at hneg
            exact Bool.noConfusion hneg
          · simp only [h2] at hneg
            exact Bool.noConfusion hneg
        · simp [recodeW]
    | cons v2 vs2 =>
      rw [List.getLast?_cons_cons] at hlast
      simp only [recodeW]
      split
      · exact ih carry vtop hlast hcarry h1 h2
      · split
        · exact ih 1 vtop hlast (by omega) h1 h2
        · exact ih 0 vtop hlast (by omega) h1 h2

theorem windowList_getLast? (c : Nat) :
    ∀ W s, (windowList c (W + 1) s).getLast? = some (s / 2 ^ (c * W) % 2 ^ c) := by
  intro W
  induction W with
  | zero => intro s; simp [windowList]
  | succ n ih =>
    intro s
    have hstep : windowList c (n + 1 + 1) s
        = s % 2 ^ c :: (s / 2 ^ c) % 2 ^ c :: windowList c n (s / 2 ^ c / 2 ^ c) := rfl
    have hback : (s / 2 ^ c) % 2 ^ c :: windowList c n (s / 2 ^ c / 2 ^ c)
        = windowList c (n + 1) (s / 2 ^ c) := rfl
    rw [hstep, List.getLast?_cons_cons, hback, ih]
    have h3 : s / 2 ^ c / 2 ^ (c * n) = s / 2 ^ (c * (n + 1)) := by
      rw [Nat.div_div_eq_div_mul, ← pow_add]
      congr 1
      ring
    rw [h3]

theorem range_map_add_mul (K l : Nat) :
    (List.range K).map (fun w => l * K + w) = List.range' (l * K) K := by
  rw [List.range_eq_range']
  have h := List.map_add_range' (l * K) 0 K 1
  rw [Nat.add_zero] at h
  exact h

theorem limbWindowIdxs_eq_range' (K : Nat) :
    ∀ l, limbWindowIdxs K l = List.range' 0 (l * K) := by
  intro l
  induction l with
  | zero => simp [limbWindowIdxs]
  | succ n ih =>
    rw [limbWindowIdxs, ih, range_map_add_mul]
    have h : List.range' 0 (n * K) ++ List.range' (0 + n * K) K
        = List.range' 0 (K + n * K) := List.range'_append_1 0 (n * K) K
    rw [Nat.zero_add] at h
    rw [h]
    congr 1
    ring

theorem flatWindows_eq_range' (K : Nat) : flatWindows K = List.range' 0 (4 * K) := by
  rw [flatWindows, limbWindowIdxs_eq_range' K 4]

/-- Reading the window of limb `l = j / K`, sub-window `j % K` (as the nested
loops do) is reading the `j`-th `c`-bit window of the whole scalar, provided
`c` divides `64`. -/
theorem winL_eq (c : Nat) (hc : 0 < c) (hcd : c ∣ 64) (s j : Nat) :
    winL c s (j / (64 / c)) (j % (64 / c)) = s / 2 ^ (c * j) % 2 ^ c := by
  have hK : c * (64 / c) = 64 := Nat.mul_div_cancel' hcd
  set K := 64 / c with hKdef
  have hKpos : 0 < K := by
    have hc64 : c ≤ 64 := Nat.le_of_dvd (by norm_num) hcd
    exact Nat.div_pos hc64 hc
  have hwlt : j % K < K := Nat.mod_lt _ hKpos
  have hcw : c * (j % K) + c ≤ 64 := by
    have hmul : c * (j % K + 1) ≤ c * K := Nat.mul_le_mul_left c hwlt
    calc c * (j % K) + c = c * (j % K + 1) := by ring
      _ ≤ c * K := hmul
      _ = 64 := hK
  unfold winL limb
  have h64 : (2 : Nat) ^ 64 = 2 ^ (c * (j % K)) * 2 ^ (64 - c * (j % K)) := by
    rw [← pow_add]
    congr 1
    omega
  rw [h64, Nat.mod_mul_right_div_self]
  rw [Nat.mod_mod_of_dvd _ (pow_dvd_pow 2 (by omega))]
  rw [Nat.div_div_eq_div_mul, ← pow_add]
  have hj : K * (j / K) + j % K = j := Nat.div_add_mod j K
  have hexp : 64 * (j / K) + c * (j % K) = c * j := by
    calc 64 * (j / K) + c * (j % K) = c * K * (j / K) + c * (j % K) := by rw [hK]
      _ = c * (K * (j / K) + j % K) := by ring
      _ = c * j := by rw [hj]
  rw [hexp]

/-- Total value of the recoded digit string of the full window decomposition:
if the top window cannot trigger the negative branch, the digits represent
`s` exactly. -/
theorem wdig_total (c : Nat) (negAt : Nat → Bool) (W s : Nat)
    (hW : 0 < W) (hs : s < 2 ^ (c * W))
    (h1 : negAt (s / 2 ^ (c * (W - 1)) % 2 ^ c) = false)
    (h2 : negAt (s / 2 ^ (c * (W - 1)) % 2 ^ c + 1) = false) :
    wdig c (recodeW c negAt (windowList c W s) 0).1 = (s : ℤ) := by
  obtain ⟨W', rfl⟩ : ∃ W', W = W' + 1 := ⟨W - 1, by omega⟩
  have hfc : (recodeW c negAt (windowList c (W' + 1) s) 0).2 = 0 := by
    refine recodeW_fc_zero c negAt _ 0 _ (windowList_getLast? c W' s) (by omega) ?_ ?_
    · simpa using h1
    · simpa using h2
  have hval := recodeW_val c negAt (windowList c (W' + 1) s) 0
  rw [hfc, windowList_length, wval_windowList, Nat.mod_eq_of_lt hs] at hval
  simpa using hval

theorem scalarMulCountGo_le (c s : Nat) :
    ∀ (l : List Nat) (carry cnt : Nat), scalarMulCountGo c s l carry cnt ≤ cnt + l.length := by
  intro l
  induction l with
  | nil => intro carry cnt; simp [scalarMulCountGo]
  | cons j rest ih =>
    intro carry cnt
    simp only [scalarMulCountGo, List.length_cons]
    split
    · exact le_trans (ih carry cnt) (by omega)
    · split
      · split
        · exact le_trans (ih 1 (cnt + 1)) (by omega)
        · exact le_trans (ih 1 cnt) (by omega)
      · exact le_trans (ih 0 (cnt + 1)) (by omega)

theorem flatWindows_length (K : Nat) : (flatWindows K).length = 4 * K := by
  rw [flatWindows_eq_range', List.length_range']

theorem four_mul_div (c : Nat) (hcd : c ∣ 64) : 4 * (64 / c) = 256 / c := by
  rcases Nat.eq_zero_or_pos c with hc | hc
  · subst hc; simp
  · obtain ⟨k, hk⟩ := hcd
    have h64 : 64 / c = k := by rw [hk, Nat.mul_div_cancel_left _ hc]
    have h256 : (256 : Nat) = c * (4 * k) := by
      have h4x : (256 : Nat) = 4 * (c * k) := by rw [← hk]
      rw [h4x]; ring
    rw [h64, h256, Nat.mul_div_cancel_left _ hc]

/-- The `ScalarMul` loop performs at most `W = 256/c` mixed additions. -/
theorem scalarMulAddCount_le (c s : Nat) (hcd : c ∣ 64) :
    scalarMulAddCount c s ≤ 256 / c := by
  have h := scalarMulCountGo_le c s (flatWindows (64 / c)) 0 0
  rw [flatWindows_length, four_mul_div c hcd] at h
  simpa using h

/-- Boundary facts for the strict recoding of a field element: with `w ∈ {8,16}`
the top window of `s < rMod` never triggers the sign flip. -/
theorem negGt_top_windows (w s : Nat) (hw : w = 8 ∨ w = 16) (hs : s < rMod) :
    negGt w (s / 2 ^ (w * (256 / w - 1)) % 2 ^ w) = false
    ∧ negGt w (s / 2 ^ (w * (256 / w - 1)) % 2 ^ w + 1) = false := by
  have hs' : s < 2 ^ 253 := lt_trans hs rMod_lt_two_pow_253
  rcases hw with h | h <;> subst h
  · have hx : s / 2 ^ 248 < 32 := by
      rw [Nat.div_lt_iff_lt_mul (by positivity)]
      calc s < 2 ^ 253 := hs'
        _ = 32 * 2 ^ 248 := by norm_num [← pow_add]
    have hmod : s / 2 ^ (8 * (256 / 8 - 1)) % 2 ^ 8 = s / 2 ^ 248 := by
      norm_num at hx ⊢
      omega
    rw [hmod]
    constructor <;> · unfold negGt; rw [Nat.one_shiftLeft]; apply decide_eq_false; norm_num; omega
  · have hx : s / 2 ^ 240 < 2 ^ 13 := by
      rw [Nat.div_lt_iff_lt_mul (by positivity)]
      calc s < 2 ^ 253 := hs'
        _ = 2 ^ 13 * 2 ^ 240 := by norm_num [← pow_add]
    have hmod : s / 2 ^ (16 * (256 / 16 - 1)) % 2 ^ 16 = s / 2 ^ 240 := by
      norm_num at hx ⊢
      omega
    rw [hmod]
    have hb : (2 : Nat) ^ 13 < 2 ^ 15 := by norm_num
    constructor <;> · unfold negGt; rw [Nat.one_shiftLeft]; apply decide_eq_false; norm_num; omega

/-- Boundary facts for the non-strict recoding: with `c ∈ {2,4,8}` (the
divisors of 64 in the engine's working range) the top window of `s < rMod`
never triggers the sign flip, so the final carry is absorbed. -/
theorem negGe_top_windows (c s : Nat) (hcd : c ∣ 64) (hc2 : 2 ≤ c) (hc8 : c ≤ 8)
    (hs : s < rMod) :
    negGe c (s / 2 ^ (c * (256 / c - 1)) % 2 ^ c) = false
    ∧ negGe c (s / 2 ^ (c * (256 / c - 1)) % 2 ^ c + 1) = false := by
  have hs' : s < 2 ^ 253 := lt_trans hs rMod_lt_two_pow_253
  interval_cases c
  · -- c = 2
    have hx : s / 2 ^ 254 = 0 := by
      apply Nat.div_eq_of_lt
      calc s < 2 ^ 253 := hs'
        _ < 2 ^ 254 := by norm_num
    have hmod : s / 2 ^ (2 * (256 / 2 - 1)) % 2 ^ 2 = 0 := by
      norm_num at hx ⊢
      omega
    rw [hmod]
    constructor <;> · unfold negGe; rw [Nat.one_shiftLeft]; apply decide_eq_false; norm_num
  · norm_num at hcd
  · -- c = 4
    have hx : s / 2 ^ 252 < 2 := by
      rw [Nat.div_lt_iff_lt_mul (by positivity)]
      calc s < 2 ^ 253 := hs'
        _ = 2 * 2 ^ 252 := by rw [← pow_succ']
    have hmod : s / 2 ^ (4 * (256 / 4 - 1)) % 2 ^ 4 = s / 2 ^ 252 := by
      norm_num at hx ⊢
      omega
    rw [hmod]
    constructor <;>
      · unfold negGe; rw [Nat.one_shiftLeft]; apply decide_eq_false; norm_num; omega
  · norm_num at hcd
  · norm_num at hcd
  · norm_num at hcd
  · -- c = 8
    have hx : s / 2 ^ 248 < 32 := by
      rw [Nat.div_lt_iff_lt_mul (by positivity)]
      calc s < 2 ^ 253 := hs'
        _ = 32 * 2 ^ 248 := by norm_num [← pow_add]
    have hmod : s / 2 ^ (8 * (256 / 8 - 1)) % 2 ^ 8 = s / 2 ^ 248 := by
      norm_num at hx ⊢
      omega
    rw [hmod]
    constructor <;>
      · unfold negGe; rw [Nat.one_shiftLeft]; apply decide_eq_false; norm_num; omega

section GroupTheorems

variable {G : Type} [AddCommGroup G]

theorem fillWindow_length (base : G) : ∀ n curr, (fillWindow base n curr).length = n := by
  intro n
  induction n with
  | zero => intro curr; rfl
  | succ m ih => intro curr; simp [fillWindow, ih]

theorem fillWindow_getD (base : G) :
    ∀ n curr k, k < n → (fillWindow base n curr).getD k 0 = curr + k • base := by
  intro n
  induction n with
  | zero => intro curr k hk; omega
  | succ m ih =>
    intro curr k hk
    cases k with
    | zero => simp [fillWindow]
    | succ k' =>
      have h := ih (curr + base) k' (by omega)
      simp only [fillWindow, List.getD_cons_succ, h, succ_nsmul]
      abel

theorem buildWindows_length (q w : Nat) :
    ∀ n (p : G), (buildWindows q w n p).length = n := by
  intro n
  induction n with
  | zero => intro p; rfl
  | succ m ih => intro p; simp [buildWindows, ih]

theorem buildWindows_getD (q w : Nat) :
    ∀ n (p : G) i, i < n → (buildWindows q w n p).getD i []
      = fillWindow (q ^ i • p) (1 <<< (w - 1)) (q ^ i • p) := by
  intro n
  induction n with
  | zero => intro p i hi; omega
  | succ m ih =>
    intro p i hi
    cases i with
    | zero => simp [buildWindows]
    | succ i' =>
      have h := ih (q • p) i' (by omega)
      simp only [buildWindows, List.getD_cons_succ, h]
      have hsm : q ^ i' • q • p = q ^ (i' + 1) • p := by
        rw [smul_smul, ← pow_succ]
      rw [hsm]

/-- Table invariant: entry `k` of window `j` is `(k+1)·(2^w)^j · P`. -/
theorem newPrecompPoint_tableD (P : G) (w : Nat) (j k : Nat)
    (hj : j < 256 / w) (hk : k < 1 <<< (w - 1)) :
    ((NewPrecompPoint P w).windows.getD j []).getD k 0
      = ((k + 1) * (1 <<< w) ^ j) • P := by
  unfold NewPrecompPoint
  simp only
  rw [buildWindows_getD _ _ _ _ _ hj, fillWindow_getD _ _ _ _ hk]
  rw [mul_smul, ← succ_nsmul']

theorem buildWindows_mem_length (q w : Nat) :
    ∀ (n : Nat) (p : G) (wl : List G),
      wl ∈ buildWindows q w n p → wl.length = 1 <<< (w - 1) := by
  intro n
  induction n with
  | zero => intro p wl h; simp [buildWindows] at h
  | succ m ih =>
    intro p wl h
    rw [buildWindows] at h
    rcases List.mem_cons.mp h with h1 | h2
    · rw [h1, fillWindow_length]
    · exact ih _ _ h2

theorem zsmul_step (X acc acc2 : G) (a b d w : ℤ)
    (h : acc2 = acc + (a * d) • X) :
    acc2 + (a * b * w) • X = acc + (a * (d + b * w)) • X := by
  rw [h, mul_add, add_zsmul, add_assoc, mul_assoc]

theorem scalarMulGo_spec (P : G) (c : Nat) (hc : 0 < c) (hcd : c ∣ 64) (s : Nat) :
    ∀ (n t carry : Nat) (acc : G), carry ≤ 1 → t + n ≤ 256 / c →
      scalarMulGo c (NewPrecompPoint P c).windows s (List.range' t n) carry acc
        = acc + (2 ^ (c * t) *
            wdig c (recodeW c (negGt c) (windowList c n (s / 2 ^ (c * t))) carry).1) • P := by
  intro n
  induction n with
  | zero =>
    intro t carry acc hcar hle
    simp [scalarMulGo, windowList, recodeW, wdig]
  | succ m ih =>
    intro t carry acc hcar hle
    rw [List.range'_succ]
    have hwin : winL c s (t / (64 / c)) (t % (64 / c)) = s / 2 ^ (c * t) % 2 ^ c :=
      winL_eq c hc hcd s t
    set v := s / 2 ^ (c * t) % 2 ^ c with hv
    have hvlt : v < 2 ^ c := Nat.mod_lt _ (Nat.pos_pow_of_pos c (by norm_num))
    have hraw_le : v + carry ≤ 2 ^ c := by omega
    have hdiv : s / 2 ^ (c * t) / 2 ^ c = s / 2 ^ (c * (t + 1)) := by
      rw [Nat.div_div_eq_div_mul, ← pow_add, show c * t + c = c * (t + 1) by ring]
    have hwl : windowList c (m + 1) (s / 2 ^ (c * t))
        = v :: windowList c m (s / 2 ^ (c * (t + 1))) := by
      rw [show windowList c (m + 1) (s / 2 ^ (c * t))
          = (s / 2 ^ (c * t)) % 2 ^ c :: windowList c m (s / 2 ^ (c * t) / 2 ^ c) from rfl,
        hdiv]
    have hidx : t / (64 / c) * (64 / c) + t % (64 / c) = t := Nat.div_add_mod' t (64 / c)
    have hpow : ((1 <<< c : ℕ)) ^ t = 2 ^ (c * t) := by
      rw [Nat.one_shiftLeft, ← pow_mul]
    have hpz : (2 : ℤ) ^ (c * (t + 1)) = 2 ^ (c * t) * 2 ^ c := by
      rw [show c * (t + 1) = c * t + c by ring, pow_add]
    have hj : t < 256 / c := by omega
    have h2c : (2 : Nat) ^ c = 2 * 2 ^ (c - 1) := by
      rw [← pow_succ']
      congr 1
      omega
    by_cases hz : v + carry = 0
    · -- windowValue == 0: skip, carry unchanged
      have hLHS : scalarMulGo c (NewPrecompPoint P c).windows s
            (t :: List.range' (t + 1) m) carry acc
          = scalarMulGo c (NewPrecompPoint P c).windows s (List.range' (t + 1) m) carry acc := by
        simp only [scalarMulGo, hwin]
        rw [if_pos hz]
      rw [hLHS, ih (t + 1) carry acc hcar (by omega), hwl]
      simp only [recodeW, hz, if_pos, wdig, hpz]
      exact zsmul_step P acc acc _ _ _ _ (by simp)
    · by_cases hneg : negGt c (v + carry) = true
      · -- negative branch
        have hge : 2 ^ (c - 1) < v + carry := by
          have := hneg
          unfold negGt at this
          rw [Nat.one_shiftLeft] at this
          exact of_decide_eq_true this
        by_cases hz2 : 2 ^ c - (v + carry) = 0
        · -- magnitude zero: skip the mixed-add, still set carry = 1
          have hLHS : scalarMulGo c (NewPrecompPoint P c).windows s
                (t :: List.range' (t + 1) m) carry acc
              = scalarMulGo c (NewPrecompPoint P c).windows s (List.range' (t + 1) m) 1 acc := by
            simp only [scalarMulGo, hwin]
            rw [if_neg hz, if_pos hneg, if_neg (by omega)]
          rw [hLHS, ih (t + 1) 1 acc (by omega) (by omega), hwl]
          simp only [recodeW, hz, if_neg, hneg, if_pos, wdig, hpz]
          have hd : ((v + carry : ℕ) : ℤ) - 2 ^ c = 0 := by
            have : v + carry = 2 ^ c := by omega
            rw [this]
            push_cast
            ring
          refine zsmul_step P acc acc _ _ _ _ ?_
          rw [hd, mul_zero, zero_zsmul, add_zero]
        · -- proper negative digit: add the negated table entry
          have hk : 2 ^ c - (v + carry) - 1 < 1 <<< (c - 1) := by
            rw [Nat.one_shiftLeft]
            omega
          have hc1 : 2 ^ c - (v + carry) - 1 + 1 = 2 ^ c - (v + carry) := by omega
          have hentry : (((NewPrecompPoint P c).windows.getD t []).getD
                (2 ^ c - (v + carry) - 1) 0)
              = ((2 ^ c - (v + carry)) * 2 ^ (c * t)) • P := by
            rw [newPrecompPoint_tableD P c t _ hj hk, hc1, hpow]
          have hLHS : scalarMulGo c (NewPrecompPoint P c).windows s
                (t :: List.range' (t + 1) m) carry acc
              = scalarMulGo c (NewPrecompPoint P c).windows s (List.range' (t + 1) m) 1
                  (acc + -(((2 ^ c - (v + carry)) * 2 ^ (c * t)) • P)) := by
            simp only [scalarMulGo, hwin]
            rw [if_neg hz, if_pos hneg, if_pos (by omega), hidx, hentry]
          rw [hLHS, ih (t + 1) 1 _ (by omega) (by omega), hwl]
          simp only [recodeW, hz, if_neg, hneg, if_pos, wdig, hpz]
          refine zsmul_step P acc _ _ _ _ _ ?_
          congr 1
          rw [← natCast_zsmul, ← neg_zsmul]
          congr 1
          push_cast [Nat.cast_sub hraw_le]
          ring
      · -- positive branch
        have hle2 : v + carry ≤ 2 ^ (c - 1) := by
          have hb : negGt c (v + carry) = false := by
            cases hbb : negGt c (v + carry)
            · rfl
            · exact absurd hbb hneg
          unfold negGt at hb
          rw [Nat.one_shiftLeft] at hb
          have := of_decide_eq_false hb
          omega
        have hk : v + carry - 1 < 1 <<< (c - 1) := by
          rw [Nat.one_shiftLeft]
          omega
        have hc1 : v + carry - 1 + 1 = v + carry := by omega
        have hentry : (((NewPrecompPoint P c).windows.getD t []).getD (v + carry - 1) 0)
            = ((v + carry) * 2 ^ (c * t)) • P := by
          rw [newPrecompPoint_tableD P c t _ hj hk, hc1, hpow]
        have hLHS : scalarMulGo c (NewPrecompPoint P c).windows s
              (t :: List.range' (t + 1) m) carry acc
            = scalarMulGo c (NewPrecompPoint P c).windows s (List.range' (t + 1) m) 0
                (acc + ((v + carry) * 2 ^ (c * t)) • P) := by
          simp only [scalarMulGo, hwin]
          rw [if_neg hz, if_neg hneg, hidx, hentry]
        rw [hLHS, ih (t + 1) 0 _ (by omega) (by omega), hwl]
        simp only [recodeW, hz, if_neg, hneg, wdig, hpz]
        refine zsmul_step P acc _ _ _ _ _ ?_
        congr 1
        rw [← natCast_zsmul]
        congr 1
        push_cast
        ring

/-- Correctness: `PrecompPoint.ScalarMul` adds `s·P` into the accumulator (full functional
correctness of the hot-point path for the window widths the engine uses). -/
theorem ScalarMul_spec (P : G) (w : Nat) (hw : w = 8 ∨ w = 16) (s : Nat)
    (hs : s < rMod) (acc : G) :
    (NewPrecompPoint P w).ScalarMul s acc = acc + (s : ℤ) • P := by
  have hc : 0 < w := by rcases hw with h | h <;> omega
  have hcd : w ∣ 64 := by rcases hw with h | h <;> (subst h; decide)
  have hW : w * (256 / w) = 256 := by rcases hw with h | h <;> (subst h; norm_num)
  have hW0 : 0 < 256 / w := by rcases hw with h | h <;> (subst h; norm_num)
  rw [show (NewPrecompPoint P w).ScalarMul s acc
      = scalarMulGo w (NewPrecompPoint P w).windows s (flatWindows (64 / w)) 0 acc from rfl]
  rw [flatWindows_eq_range', four_mul_div w hcd]
  have hspec := scalarMulGo_spec P w hc hcd s (256 / w) 0 0 acc (by omega) (by omega)
  rw [hspec]
  have htop := negGt_top_windows w s hw hs
  have htot := wdig_total w (negGt w) (256 / w) s hW0
    (by rw [hW]; exact lt_trans (lt_trans hs rMod_lt_two_pow_253) (by norm_num))
    htop.1 htop.2
  simp only [Nat.mul_zero, pow_zero, Nat.div_one, one_mul] at *
  rw [htot]

theorem powersLadder_getD (q : Nat) :
    ∀ (n : Nat) (p : G) (j : Nat), j < n → (powersLadder q n p).getD j 0 = q ^ j • p := by
  intro n
  induction n with
  | zero => intro p j hj; omega
  | succ m ih =>
    intro p j hj
    cases j with
    | zero => simp [powersLadder]
    | succ j' =>
      have h := ih (q • p) j' (by omega)
      simp only [powersLadder, List.getD_cons_succ, h]
      rw [smul_smul, ← pow_succ]

theorem powersLadder_length (q : Nat) :
    ∀ (n : Nat) (p : G), (powersLadder q n p).length = n := by
  intro n
  induction n with
  | zero => intro p; rfl
  | succ m ih => intro p; simp [powersLadder, ih]

theorem wsumFrom_append :
    ∀ (l1 l2 : List G) (t : Nat),
      wsumFrom t (l1 ++ l2) = wsumFrom t l1 + wsumFrom (t + l1.length) l2 := by
  intro l1
  induction l1 with
  | nil => intro l2 t; simp [wsumFrom]
  | cons x rest ih =>
    intro l2 t
    simp only [List.cons_append, wsumFrom, List.length_cons, List.append_eq]
    rw [ih l2 (t + 1)]
    rw [show t + (rest.length + 1) = t + 1 + rest.length by ring]
    abel

theorem wsumFrom_set (Q : G) :
    ∀ (l : List G) (t k : Nat), k < l.length →
      wsumFrom t (l.set k (l.getD k 0 + Q)) = wsumFrom t l + (t + k) • Q := by
  intro l
  induction l with
  | nil => intro t k hk; simp at hk
  | cons x rest ih =>
    intro t k hk
    cases k with
    | zero =>
      simp only [List.set_cons_zero, List.getD_cons_zero, wsumFrom, smul_add]
      abel
    | succ k' =>
      simp only [List.set_cons_succ, List.getD_cons_succ, wsumFrom]
      rw [ih (t + 1) k' (by simpa using hk)]
      rw [show t + 1 + k' = t + (k' + 1) by ring]
      abel

/-- Adding `Q` into bucket `k` raises the weighted bucket sum by `k • Q`
(also for `k = 0`, whose weight is zero). -/
theorem weightedBucketSum_set (buckets : List G) (k : Nat) (Q : G)
    (hk : k < buckets.length) :
    weightedBucketSum (buckets.set k (buckets.getD k 0 + Q))
      = weightedBucketSum buckets + k • Q := by
  cases buckets with
  | nil => simp at hk
  | cons b rest =>
    cases k with
    | zero =>
      simp only [List.set_cons_zero, weightedBucketSum, List.drop_one, List.tail_cons,
        zero_smul, add_zero]
    | succ k' =>
      simp only [List.set_cons_succ, List.getD_cons_succ, weightedBucketSum, List.drop_one,
        List.tail_cons]
      rw [wsumFrom_set Q rest 1 k' (by simpa using hk)]
      rw [show 1 + k' = k' + 1 by ring]

theorem doWorkScalarGo_length (c : Nat) (ladder : List G) (s : Nat) :
    ∀ (l : List Nat) (carry : Nat) (bks : List G),
      (doWorkScalarGo c ladder s l carry bks).length = bks.length := by
  intro l
  induction l with
  | nil => intro carry bks; rfl
  | cons j rest ih =>
    intro carry bks
    simp only [doWorkScalarGo]
    split
    · exact ih carry bks
    · split
      · rw [ih]
        simp
      · rw [ih]
        simp

/-- Per-window bucket invariant for `doWork`'s inner loops: processing windows
`t, t+1, …` raises the weighted bucket sum by exactly the value the emitted
signed digits represent, times `P`. -/
theorem doWorkScalarGo_wsum (P : G) (c : Nat) (hc : 0 < c) (hcd : c ∣ 64) (s : Nat)
    (ladder : List G) (hlad : ∀ j, j < 256 / c → ladder.getD j 0 = 2 ^ (c * j) • P) :
    ∀ (n t carry : Nat) (bks : List G), carry ≤ 1 → t + n ≤ 256 / c →
      bks.length = 2 ^ (c - 1) + 1 →
      weightedBucketSum (doWorkScalarGo c ladder s (List.range' t n) carry bks)
        = weightedBucketSum bks
          + (2 ^ (c * t) *
              wdig c (recodeW c (negGe c) (windowList c n (s / 2 ^ (c * t))) carry).1) • P := by
  intro n
  induction n with
  | zero =>
    intro t carry bks hcar hle hlen
    simp [doWorkScalarGo, windowList, recodeW, wdig]
  | succ m ih =>
    intro t carry bks hcar hle hlen
    rw [List.range'_succ]
    have hwin : winL c s (t / (64 / c)) (t % (64 / c)) = s / 2 ^ (c * t) % 2 ^ c :=
      winL_eq c hc hcd s t
    set v := s / 2 ^ (c * t) % 2 ^ c with hv
    have hvlt : v < 2 ^ c := Nat.mod_lt _ (Nat.pos_pow_of_pos c (by norm_num))
    have hraw_le : v + carry ≤ 2 ^ c := by omega
    have hdiv : s / 2 ^ (c * t) / 2 ^ c = s / 2 ^ (c * (t + 1)) := by
      rw [Nat.div_div_eq_div_mul, ← pow_add, show c * t + c = c * (t + 1) by ring]
    have hwl : windowList c (m + 1) (s / 2 ^ (c * t))
        = v :: windowList c m (s / 2 ^ (c * (t + 1))) := by
      rw [show windowList c (m + 1) (s / 2 ^ (c * t))
          = (s / 2 ^ (c * t)) % 2 ^ c :: windowList c m (s / 2 ^ (c * t) / 2 ^ c) from rfl,
        hdiv]
    have hidx : t / (64 / c) * (64 / c) + t % (64 / c) = t := Nat.div_add_mod' t (64 / c)
    have hpz : (2 : ℤ) ^ (c * (t + 1)) = 2 ^ (c * t) * 2 ^ c := by
      rw [show c * (t + 1) = c * t + c by ring, pow_add]
    have hj : t < 256 / c := by omega
    have h2c : (2 : Nat) ^ c = 2 * 2 ^ (c - 1) := by
      rw [← pow_succ']
      congr 1
      omega
    have hladt : ladder.getD t 0 = 2 ^ (c * t) • P := hlad t hj
    by_cases hz : v + carry = 0
    · -- windowValue == 0: skip, carry unchanged
      have hLHS : doWorkScalarGo c ladder s (t :: List.range' (t + 1) m) carry bks
          = doWorkScalarGo c ladder s (List.range' (t + 1) m) carry bks := by
        simp only [doWorkScalarGo, hwin]
        rw [if_pos hz]
      rw [hLHS, ih (t + 1) carry bks hcar (by omega) hlen, hwl]
      simp only [recodeW, hz, if_pos, wdig, hpz]
      exact zsmul_step P _ _ _ _ _ _ (by simp)
    · by_cases hneg : negGe c (v + carry) = true
      · -- negative branch: bucket (2^c - windowValue) gets the negated ladder point
        have hge : 2 ^ (c - 1) ≤ v + carry := by
          have hthis := hneg
          unfold negGe at hthis
          rw [Nat.one_shiftLeft] at hthis
          exact of_decide_eq_true hthis
        have hklt : 2 ^ c - (v + carry) < bks.length := by omega
        have hbset : weightedBucketSum
              (bks.set (2 ^ c - (v + carry))
                (bks.getD (2 ^ c - (v + carry)) 0 + -(ladder.getD t 0)))
            = weightedBucketSum bks
              + ((2 : ℤ) ^ (c * t) * (((v + carry : ℕ) : ℤ) - 2 ^ c)) • P := by
          rw [weightedBucketSum_set _ _ _ hklt, hladt]
          congr 1
          rw [smul_neg, smul_smul, ← natCast_zsmul, ← neg_zsmul]
          congr 1
          push_cast [Nat.cast_sub hraw_le]
          ring
        have hLHS : doWorkScalarGo c ladder s (t :: List.range' (t + 1) m) carry bks
            = doWorkScalarGo c ladder s (List.range' (t + 1) m) 1
                (bks.set (2 ^ c - (v + carry))
                  (bks.getD (2 ^ c - (v + carry)) 0 + -(ladder.getD t 0))) := by
          simp only [doWorkScalarGo, hwin]
          rw [if_neg hz, if_pos hneg, hidx]
        rw [hLHS, ih (t + 1) 1 _ (by omega) (by omega)
          (by rw [List.length_set]; exact hlen), hwl]
        simp only [recodeW, hz, if_neg, hneg, if_pos, wdig, hpz]
        exact zsmul_step P _ _ _ _ _ _ hbset
      · -- positive branch: bucket windowValue gets the ladder point
        have hlt2 : v + carry < 2 ^ (c - 1) := by
          have hb : negGe c (v + carry) = false := by
            cases hbb : negGe c (v + carry)
            · rfl
            · exact absurd hbb hneg
          unfold negGe at hb
          rw [Nat.one_shiftLeft] at hb
          have := of_decide_eq_false hb
          omega
        have hklt : v + carry < bks.length := by omega
        have hbset : weightedBucketSum
              (bks.set (v + carry) (bks.getD (v + carry) 0 + ladder.getD t 0))
            = weightedBucketSum bks
              + ((2 : ℤ) ^ (c * t) * ((v + carry : ℕ) : ℤ)) • P := by
          rw [weightedBucketSum_set _ _ _ hklt, hladt]
          congr 1
          rw [smul_smul, ← natCast_zsmul]
          congr 1
          push_cast
          ring
        have hLHS : doWorkScalarGo c ladder s (t :: List.range' (t + 1) m) carry bks
            = doWorkScalarGo c ladder s (List.range' (t + 1) m) 0
                (bks.set (v + carry) (bks.getD (v + carry) 0 + ladder.getD t 0)) := by
          simp only [doWorkScalarGo, hwin]
          rw [if_neg hz, if_neg hneg, hidx]
        rw [hLHS, ih (t + 1) 0 _ (by omega) (by omega)
          (by rw [List.length_set]; exact hlen), hwl]
        simp only [recodeW, hz, if_neg, hneg, wdig, hpz]
        exact zsmul_step P _ _ _ _ _ _ hbset

/-- Full-scalar bucket invariant: accumulating one scalar `s < rMod` with a
correct point-power ladder raises `∑ k·B[k]` by exactly `s • P`. -/
theorem doWorkScalar_total (P : G) (c : Nat) (hcd : c ∣ 64) (hc2 : 2 ≤ c) (hc8 : c ≤ 8)
    (s : Nat) (hs : s < rMod) (ladder : List G)
    (hlad : ∀ j, j < 256 / c → ladder.getD j 0 = 2 ^ (c * j) • P)
    (bks : List G) (hlen : bks.length = 2 ^ (c - 1) + 1) :
    weightedBucketSum (doWorkScalarGo c ladder s (flatWindows (64 / c)) 0 bks)
      = weightedBucketSum bks + (s : ℤ) • P := by
  have hc : 0 < c := by omega
  have hW : c * (256 / c) = 256 := Nat.mul_div_cancel' (dvd_trans hcd (by norm_num))
  rw [flatWindows_eq_range', four_mul_div c hcd]
  rw [doWorkScalarGo_wsum P c hc hcd s ladder hlad (256 / c) 0 0 bks (by omega) (by omega) hlen]
  have hW0 : 0 < 256 / c := Nat.div_pos (by omega) hc
  have htop := negGe_top_windows c s hcd hc2 hc8 hs
  have htot := wdig_total c (negGe c) (256 / c) s hW0
    (by rw [hW]; exact lt_trans (lt_trans hs rMod_lt_two_pow_253) (by norm_num))
    htop.1 htop.2
  simp only [Nat.mul_zero, pow_zero, Nat.div_one, one_mul] at htot ⊢
  rw [htot]

theorem initBuckets_length (c : Nat) : (initBuckets (G := G) c).length = 2 ^ (c - 1) + 1 := by
  rw [initBuckets, List.length_replicate, Nat.one_shiftLeft]

theorem wsumFrom_replicate_zero : ∀ (n t : Nat), wsumFrom t (List.replicate n (0 : G)) = 0 := by
  intro n
  induction n with
  | zero => intro t; rfl
  | succ m ih =>
    intro t
    rw [List.replicate_succ]
    simp only [wsumFrom, ih, smul_zero, add_zero]

theorem weightedBucketSum_initBuckets (c : Nat) :
    weightedBucketSum (initBuckets (G := G) c) = 0 := by
  rw [initBuckets, weightedBucketSum, List.replicate_succ]
  simp only [List.drop_one, List.tail_cons]
  exact wsumFrom_replicate_zero _ _

theorem doWorkBuckets_length (c : Nat) :
    ∀ (l : List (List G × Nat)) (bks : List G),
      (doWorkBuckets c l bks).length = bks.length := by
  intro l
  induction l with
  | nil => intro bks; rfl
  | cons p rest ih =>
    intro bks
    obtain ⟨ladder, s⟩ := p
    simp only [doWorkBuckets]
    split
    · exact ih bks
    · rw [ih, doWorkScalarGo_length]

/-- Bucket invariant over a whole shard: after step 2 of the worker,
`∑ k·B[k]` has grown by `∑ sᵢ • Pᵢ` over the shard. -/
theorem doWorkBuckets_wsum (c : Nat) (hcd : c ∣ 64) (hc2 : 2 ≤ c) (hc8 : c ≤ 8) :
    ∀ (Ps : List G) (scalars : List Nat) (bks : List G),
      scalars.length = Ps.length → (∀ x ∈ scalars, x < rMod) →
      bks.length = 2 ^ (c - 1) + 1 →
      weightedBucketSum (doWorkBuckets c
          ((Ps.map (powersLadder (1 <<< c) (256 / c))).zip scalars) bks)
        = weightedBucketSum bks + msmSpec scalars Ps := by
  intro Ps
  induction Ps with
  | nil =>
    intro scalars bks hlen hsb hblen
    have hs0 : scalars = [] := List.eq_nil_of_length_eq_zero (by simpa using hlen)
    subst hs0
    simp [doWorkBuckets, msmSpec]
  | cons P Ps ih =>
    intro scalars bks hlen hsb hblen
    cases scalars with
    | nil => simp at hlen
    | cons s ss =>
      have hlad : ∀ j, j < 256 / c →
          (powersLadder (1 <<< c) (256 / c) P).getD j 0 = 2 ^ (c * j) • P := by
        intro j hj
        rw [powersLadder_getD _ _ _ _ hj, Nat.one_shiftLeft, ← pow_mul]
      have hmsm : msmSpec (s :: ss) (P :: Ps) = s • P + msmSpec ss Ps := by
        simp [msmSpec]
      rw [show (List.map (powersLadder (1 <<< c) (256 / c)) (P :: Ps)).zip (s :: ss)
          = (powersLadder (1 <<< c) (256 / c) P, s)
              :: (List.map (powersLadder (1 <<< c) (256 / c)) Ps).zip ss from rfl]
      simp only [doWorkBuckets]
      split
      · rename_i hs0
        subst hs0
        rw [ih ss bks (by simpa using hlen) (fun x hx => hsb x (by simp [hx])) hblen, hmsm]
        rw [zero_smul, zero_add]
      · rename_i hs0
        rw [ih ss _ (by simpa using hlen) (fun x hx => hsb x (by simp [hx]))
            (by rw [doWorkScalarGo_length]; exact hblen)]
        rw [doWorkScalar_total P c hcd hc2 hc8 s (hsb s (by simp)) _ hlad bks hblen, hmsm]
        rw [natCast_zsmul]
        abel

/-- Claim C3 (amended): `MSM` fails with the scalar-count error exactly when
`k > 256` (the fixed engine maximum), regardless of how many basis points
were supplied at construction. -/
theorem C3_amended_msm_guard (points : List G) (wsz : ℤ)
    (e : Bander2.MSMFixedBasis G) (hok : Bander2.New points wsz = .ok e)
    (scalars : List Nat) :
    (Bander2.MSMErr e scalars).isSome = true ↔ 256 < scalars.length := by
  have hlen : e.pointsPowers.length = 256 := by
    unfold Bander2.New at hok
    split at hok
    · cases hok
    · split at hok
      · cases hok
      · split at hok
        · cases hok
        · split at hok
          · cases hok
          · cases hok
            simp
  rw [Bander2.MSMErr, hlen]
  constructor
  · intro h
    by_contra hc
    rw [if_neg (by omega)] at h
    simp at h
  · intro h
    rw [if_pos (by omega)]
    rfl

/-- Claim C4 (amended): the window check of `New` rejects exactly the widths
above 256 (`windowSize > fieldSizeBits`); every width `1 ≤ c ≤ 256` is
accepted, and divisibility by 64 is never checked. -/
theorem C4_amended_window_check (points : List G) (wsz : ℤ)
    (hn : points.length ≤ 256) (h1 : 1 ≤ wsz) :
    ((Bander2.New points wsz).isOk = true ↔ wsz ≤ 256)
    ∧ (256 < wsz → Bander2.New points wsz = .err "c must be less than field size") := by
  unfold Bander2.New
  constructor
  · constructor
    · intro h
      by_contra hgt
      rw [if_neg (by omega), if_pos (by omega)] at h
      simp [NewOutcome.isOk] at h
    · intro h
      rw [if_neg (by omega), if_neg (by omega), if_neg (by omega), if_neg (by omega)]
      rfl
  · intro h
    rw [if_neg (by omega), if_pos (by omega)]

/-- Claim C7: `ScalarMul(s, acc)` leaves the accumulator equal to `acc + s·P`,
performs at most `256/w` mixed additions (the loop contains no doubling at
all), takes the scalar by value, and chains: a second call on the same
accumulator adds the second multiple with no normalisation in between. -/
theorem C7_scalarMul_adds (P : G) (w : Nat) (hw : w = 8 ∨ w = 16)
    (s s2 : Nat) (hs : s < rMod) (hs2 : s2 < rMod) (acc : G) :
    (NewPrecompPoint P w).ScalarMul s acc = acc + s • P
    ∧ scalarMulAddCount w s ≤ 256 / w
    ∧ (NewPrecompPoint P w).ScalarMul s2 ((NewPrecompPoint P w).ScalarMul s acc)
        = acc + s • P + s2 • P := by
  have hcd : w ∣ 64 := by rcases hw with h | h <;> (subst h; decide)
  have h1 := ScalarMul_spec P w hw s hs acc
  rw [natCast_zsmul] at h1
  refine ⟨h1, scalarMulAddCount_le w s hcd, ?_⟩
  rw [h1]
  have h2 := ScalarMul_spec P w hw s2 hs2 (acc + s • P)
  rw [natCast_zsmul] at h2
  exact h2

/-- Claim C8: after `NewPrecompPoint(P, w)` the table holds exactly `256/w`
windows of `2^{w-1}` points each, and entry `k-1` of window `j` is
`(k·(2^w)^j)·P`. -/
theorem C8_precomp_table_invariant (P : G) (w : Nat) (hw : w = 8 ∨ w = 16) :
    (NewPrecompPoint P w).windows.length = 256 / w
    ∧ (∀ wl ∈ (NewPrecompPoint P w).windows, wl.length = 2 ^ (w - 1))
    ∧ (∀ j k, j < 256 / w → 1 ≤ k → k ≤ 2 ^ (w - 1) →
        ((NewPrecompPoint P w).windows.getD j []).getD (k - 1) 0
          = (k * 2 ^ (w * j)) • P) := by
  refine ⟨buildWindows_length _ _ _ _, ?_, ?_⟩
  · intro wl hwl
    have h := buildWindows_mem_length (1 <<< w) w (256 / w) P wl hwl
    rw [h, Nat.one_shiftLeft]
  · intro j k hj hk1 hk2
    have hk : k - 1 < 1 <<< (w - 1) := by
      rw [Nat.one_shiftLeft]
      omega
    have h := newPrecompPoint_tableD P w j (k - 1) hj hk
    rw [h]
    have hco : k - 1 + 1 = k := by omega
    rw [hco, Nat.one_shiftLeft, ← pow_mul]

variable [DecidableEq G]

theorem runningSumGo_spec :
    ∀ (l : List G) (tmp result : G),
      runningSumGo l tmp result = result + l.length • tmp + wsumFrom 1 l.reverse := by
  intro l
  induction l with
  | nil => intro tmp result; simp [runningSumGo, wsumFrom]
  | cons b rest ih =>
    intro tmp result
    have hguard : (if ¬b = 0 then tmp + b else tmp) = tmp + b := by
      split
      · rfl
      · rename_i h
        simp at h
        rw [h, add_zero]
    simp only [runningSumGo, hguard, ih, List.reverse_cons, List.length_cons]
    rw [wsumFrom_append, List.length_reverse]
    simp only [wsumFrom, add_zero, smul_add, add_nsmul, one_nsmul]
    abel

/-- The running-sum reduction computes exactly `∑_{k≥1} k·B[k]`, with the
`IsIdentity` skip being semantically transparent. -/
theorem reduceBuckets_eq (buckets : List G) :
    reduceBuckets buckets = weightedBucketSum buckets := by
  rw [reduceBuckets, runningSumGo_spec, weightedBucketSum, List.reverse_reverse]
  simp

/-- A Pippenger worker given correct point-power ladders delivers exactly
`∑ sᵢ • Pᵢ` over its shard. -/
theorem doWork_eq_msmSpec (c : Nat) (hcd : c ∣ 64) (hc2 : 2 ≤ c) (hc8 : c ≤ 8)
    (Ps : List G) (scalars : List Nat) (hlen : scalars.length = Ps.length)
    (hs : ∀ x ∈ scalars, x < rMod) :
    doWork c (Ps.map (powersLadder (1 <<< c) (256 / c))) scalars = msmSpec scalars Ps := by
  rw [doWork, reduceBuckets_eq,
    doWorkBuckets_wsum c hcd hc2 hc8 Ps scalars _ hlen hs (initBuckets_length c),
    weightedBucketSum_initBuckets, zero_add]

/-- Claim C6: a Pippenger worker given matching point-power ladders delivers
`∑ sᵢ·Pᵢ` over its shard: after bucket accumulation the weighted bucket sum
`∑_{k=1..2^{c-1}} k·B[k]` equals the shard sum, and the running-sum
reduction returns exactly the weighted bucket sum. -/
theorem C6_doWork_correct
    (c : Nat) (hcd : c ∣ 64) (hc2 : 2 ≤ c) (hc8 : c ≤ 8)
    (Ps : List G) (scalars : List Nat) (hlen : scalars.length = Ps.length)
    (hs : ∀ x ∈ scalars, x < rMod) :
    weightedBucketSum (doWorkBuckets c
        ((Ps.map (powersLadder (1 <<< c) (256 / c))).zip scalars) (initBuckets c))
      = msmSpec scalars Ps
    ∧ doWork c (Ps.map (powersLadder (1 <<< c) (256 / c))) scalars = msmSpec scalars Ps
    ∧ (∀ bks : List G, reduceBuckets bks = weightedBucketSum bks) := by
  refine ⟨?_, ?_, reduceBuckets_eq⟩
  · rw [doWorkBuckets_wsum c hcd hc2 hc8 Ps scalars _ hlen hs (initBuckets_length c),
      weightedBucketSum_initBuckets, zero_add]
  · exact doWork_eq_msmSpec c hcd hc2 hc8 Ps scalars hlen hs

end GroupTheorems

/-- Claim C1 (code bug): the universal MSM contract fails on part_002's engine.
With 25 scalars, all nonzero, on a host with `runtime.NumCPU() = 6`, the
parallel precomp path of `msmPrecomp` computes `numBatches = 6` and
`batchSize = 5`, but the partition loop spawns only 5 workers; the
aggregation loop then waits for 6 partial sums, so `MSM` never returns the
point `∑ sᵢ·Pᵢ` it promises. -/
theorem C1_msm_contract_fails_spawn_deficit :
    Pip256.setCount (List.replicate 25 1) = 25
    ∧ Pip256.numBatches (Pip256.setCount (List.replicate 25 1)) 6 = 6
    ∧ Pip256.batchSize (Pip256.setCount (List.replicate 25 1)) 6 = 5
    ∧ Pip256.chunkCount (Pip256.batchSize (Pip256.setCount (List.replicate 25 1)) 6)
        (Pip256.activeSet (List.replicate 25 1)) = 5
    ∧ (5 : Nat) ≠ 6 := by
  decide

/-- Claim C2 (counterexample): in `doWork` a raw window value exactly equal to
`2^{c-1}` is NOT emitted as a positive digit: with `c = 4` and scalar
`s = 8 = 2^{4-1}` the worker adds the negated ladder point into bucket 8
(digit `-2^{c-1}`, carry 1), leaving `-P = -1` there. -/
theorem C2_counterexample_doWork_ge :
    (doWorkScalarGo (G := ℤ) 4 (powersLadder (1 <<< 4) (256 / 4) 1) 8
        (flatWindows (64 / 4)) 0 (initBuckets 4)).getD 8 0 = -1 := by
  decide

/-- Claim C2 (amended): `PrecompPoint.ScalarMul` uses the strict comparison, so
raw `2^{c-1}` is emitted as the positive digit `2^{c-1}` with carry 0, while
`doWork` uses the non-strict comparison, so the same raw value is emitted as
the negative digit `2^{c-1} - 2^c` with carry 1; the two digit/carry pairs
represent the same value, so both consumers compute the same group element. -/
theorem C2_amended_recoding_boundary (c : Nat) (hc : 0 < c) :
    negGt c (2 ^ (c - 1)) = false
    ∧ negGe c (2 ^ (c - 1)) = true
    ∧ recodeW c (negGt c) [2 ^ (c - 1)] 0 = ([(2 : ℤ) ^ (c - 1)], 0)
    ∧ recodeW c (negGe c) [2 ^ (c - 1)] 0 = ([(2 : ℤ) ^ (c - 1) - 2 ^ c], 1)
    ∧ (2 : ℤ) ^ (c - 1) = ((2 : ℤ) ^ (c - 1) - 2 ^ c) + 2 ^ c * 1 := by
  have hpos : 0 < 2 ^ (c - 1) := Nat.pos_pow_of_pos _ (by norm_num)
  have h1 : negGt c (2 ^ (c - 1)) = false := by
    unfold negGt
    rw [Nat.one_shiftLeft]
    apply decide_eq_false
    omega
  have h2 : negGe c (2 ^ (c - 1)) = true := by
    unfold negGe
    rw [Nat.one_shiftLeft]
    exact decide_eq_true (le_refl _)
  refine ⟨h1, h2, ?_, ?_, by ring⟩
  · simp only [recodeW, Nat.add_zero]
    rw [if_neg (by omega), if_neg (by rw [h1]; exact Bool.false_ne_true)]
    simp only [Prod.mk.injEq, List.cons.injEq, and_true]
    push_cast
    ring
  · simp only [recodeW, Nat.add_zero]
    rw [if_neg (by omega), if_pos h2]
    simp only [Prod.mk.injEq, List.cons.injEq, and_true]
    push_cast
    ring

theorem C2_amended_recoding_boundary_witness :
    (0 : Nat) < 8
    ∧ (negGt 8 (2 ^ (8 - 1)) = false
      ∧ negGe 8 (2 ^ (8 - 1)) = true
      ∧ recodeW 8 (negGt 8) [2 ^ (8 - 1)] 0 = ([(2 : ℤ) ^ (8 - 1)], 0)
      ∧ recodeW 8 (negGe 8) [2 ^ (8 - 1)] 0 = ([(2 : ℤ) ^ (8 - 1) - 2 ^ 8], 1)
      ∧ (2 : ℤ) ^ (8 - 1) = ((2 : ℤ) ^ (8 - 1) - 2 ^ 8) + 2 ^ 8 * 1) :=
  ⟨by norm_num, C2_amended_recoding_boundary 8 (by norm_num)⟩

/-- Claim C3 (counterexample): an engine built from 5 basis points accepts a
vector of 6 scalars without error — `MSM`'s guard compares against the fixed
array length 256, not the constructed basis length `N = 5`. -/
theorem C3_counterexample_accepts_more_than_basis :
    (Bander2.New (List.replicate 5 (1 : ℤ)) 8).isOk = true
    ∧ Bander2.MSMErr
        ((Bander2.New (List.replicate 5 (1 : ℤ)) 8).engineOr (dummyEngine ℤ))
        (List.replicate 6 0) = none
    ∧ 5 < 6 ∧ 6 ≤ 256 := by
  exact ⟨rfl, rfl, by norm_num, by norm_num⟩

theorem C3_amended_msm_guard_witness :
    (Bander2.New (List.replicate 3 (1 : ℤ)) 4
      = NewOutcome.ok ((Bander2.New (List.replicate 3 (1 : ℤ)) 4).engineOr (dummyEngine ℤ)))
    ∧ ((Bander2.MSMErr
          ((Bander2.New (List.replicate 3 (1 : ℤ)) 4).engineOr (dummyEngine ℤ))
          (List.replicate 300 0)).isSome = true ↔ 256 < (List.replicate 300 (0 : Nat)).length) := by
  have h : Bander2.New (List.replicate 3 (1 : ℤ)) 4
      = NewOutcome.ok ((Bander2.New (List.replicate 3 (1 : ℤ)) 4).engineOr (dummyEngine ℤ)) := rfl
  exact ⟨h, C3_amended_msm_guard _ _ _ h _⟩

/-- Claim C4 (counterexample): `New` accepts window width 3, although 3 does
not divide 64 — no `InvalidWindow` error is produced. -/
theorem C4_counterexample_accepts_width_3 :
    (Bander2.New [(1 : ℤ)] 3).isOk = true ∧ ¬(3 ∣ 64) := by
  exact ⟨rfl, by decide⟩

theorem C4_amended_window_check_witness :
    (([(1 : ℤ)] : List ℤ).length ≤ 256 ∧ (1 : ℤ) ≤ 24)
    ∧ (((Bander2.New [(1 : ℤ)] (24 : ℤ)).isOk = true ↔ (24 : ℤ) ≤ 256)
      ∧ (256 < (24 : ℤ) →
          Bander2.New [(1 : ℤ)] (24 : ℤ) = .err "c must be less than field size")) :=
  ⟨⟨by norm_num, by norm_num⟩, C4_amended_window_check [(1 : ℤ)] 24 (by norm_num) (by norm_num)⟩

/-- Claim C5 (code bug): `New` panics on input data, contradicting the
never-panic contract: width 0 hits the division `fieldSizeBits / windowSize`
(integer divide by zero), a negative width hits `1 << windowSize` (negative
shift), and part_002's `New` slices `points[256:]`, which faults for any
basis of fewer than 256 points. -/
theorem C5_new_panics_on_inputs :
    Pip256.New (List.replicate 256 (1 : ℤ)) 0 = .panics "integer divide by zero"
    ∧ Pip256.New (List.replicate 256 (1 : ℤ)) (-1) = .panics "negative shift amount"
    ∧ Pip256.New (List.replicate 5 (1 : ℤ)) 8 = .panics "slice bounds out of range"
    ∧ Bander2.New (List.replicate 256 (1 : ℤ)) 0 = .panics "integer divide by zero" := by
  exact ⟨rfl, rfl, rfl, rfl⟩

theorem C6_doWork_correct_witness :
    ((4 : Nat) ∣ 64 ∧ (2 : Nat) ≤ 4 ∧ (4 : Nat) ≤ 8
      ∧ ([2] : List Nat).length = ([(1 : ℤ)] : List ℤ).length
      ∧ (∀ x ∈ ([2] : List Nat), x < rMod))
    ∧ (weightedBucketSum (doWorkBuckets 4
          ((([(1 : ℤ)]).map (powersLadder (1 <<< 4) (256 / 4))).zip [2]) (initBuckets 4))
        = msmSpec [2] [(1 : ℤ)]
      ∧ doWork 4 (([(1 : ℤ)]).map (powersLadder (1 <<< 4) (256 / 4))) [2]
          = msmSpec [2] [(1 : ℤ)]
      ∧ (∀ bks : List ℤ, reduceBuckets bks = weightedBucketSum bks)) :=
  ⟨⟨by decide, by decide, by decide, by decide, by decide⟩,
    C6_doWork_correct 4 (by decide) (by decide) (by decide) [(1 : ℤ)] [2] (by decide)
      (by decide)⟩

theorem C7_scalarMul_adds_witness :
    (((8 : Nat) = 8 ∨ (8 : Nat) = 16) ∧ (2 : Nat) < rMod ∧ (3 : Nat) < rMod)
    ∧ ((NewPrecompPoint (1 : ℤ) 8).ScalarMul 2 5 = 5 + 2 • (1 : ℤ)
      ∧ scalarMulAddCount 8 2 ≤ 256 / 8
      ∧ (NewPrecompPoint (1 : ℤ) 8).ScalarMul 3 ((NewPrecompPoint (1 : ℤ) 8).ScalarMul 2 5)
          = 5 + 2 • (1 : ℤ) + 3 • (1 : ℤ)) :=
  ⟨⟨Or.inl rfl, by decide, by decide⟩,
    C7_scalarMul_adds (1 : ℤ) 8 (Or.inl rfl) 2 3 (by decide) (by decide) 5⟩

theorem C8_precomp_table_invariant_witness :
    ((8 : Nat) = 8 ∨ (8 : Nat) = 16)
    ∧ ((NewPrecompPoint (1 : ℤ) 8).windows.length = 256 / 8
      ∧ (∀ wl ∈ (NewPrecompPoint (1 : ℤ) 8).windows, wl.length = 2 ^ (8 - 1))
      ∧ (∀ j k, j < 256 / 8 → 1 ≤ k → k ≤ 2 ^ (8 - 1) →
          ((NewPrecompPoint (1 : ℤ) 8).windows.getD j []).getD (k - 1) 0
            = (k * 2 ^ (8 * j)) • (1 : ℤ))) :=
  ⟨Or.inl rfl, C8_precomp_table_invariant (1 : ℤ) 8 (Or.inl rfl)⟩

/-- Claim C9 (code bug): the partition loop does not always spawn `numBatches`
workers.  With 36 nonzero scalars on a host with `runtime.NumCPU() = 7`,
`numBatches = 7` and `batchSize = 6`, but the loop spawns only 6 workers;
the aggregation loop still awaits 7 partial sums. -/
theorem C9_partition_spawn_mismatch :
    Pip256.setCount (List.replicate 36 1) = 36
    ∧ Pip256.numBatches (Pip256.setCount (List.replicate 36 1)) 7 = 7
    ∧ Pip256.batchSize (Pip256.setCount (List.replicate 36 1)) 7 = 6
    ∧ Pip256.chunkCount (Pip256.batchSize (Pip256.setCount (List.replicate 36 1)) 7)
        (Pip256.activeSet (List.replicate 36 1)) = 6
    ∧ (6 : Nat) ≠ 7 := by
  decide

/-- Claim C10: whenever the scalar-count guard fires, `MSM` returns the Go zero
value `PointProj{}` (all coordinates zero) together with the error; the zero
value has `Z = 0`, hence is not a valid projective representative of any
group element (in particular not of the identity); and no part of the MSM
computation runs — the returned pair does not depend on the MSM body. -/
theorem C10_error_returns_zero_value (body body2 : List Nat → PointProj)
    (scalars : List Nat) (h : 256 < scalars.length) :
    MSMTop body scalars = (zeroPointProj, some "more scalars than accepted")
    ∧ zeroPointProj.Z = 0
    ∧ ¬validRep zeroPointProj
    ∧ (∀ q : PointProj, validRep q → q ≠ zeroPointProj)
    ∧ MSMTop body scalars = MSMTop body2 scalars := by
  have hguard : MSMTop body scalars = (zeroPointProj, some "more scalars than accepted") := by
    rw [MSMTop, if_pos (by omega)]
  have hguard2 : MSMTop body2 scalars = (zeroPointProj, some "more scalars than accepted") := by
    rw [MSMTop, if_pos (by omega)]
  refine ⟨hguard, rfl, ?_, ?_, by rw [hguard, hguard2]⟩
  · intro hv
    exact hv rfl
  · intro q hv hq
    subst hq
    exact hv rfl

theorem C10_error_returns_zero_value_witness :
    256 < (List.replicate 257 (0 : Nat)).length
    ∧ (MSMTop (fun _ => ⟨0, 1, 1⟩) (List.replicate 257 0)
        = (zeroPointProj, some "more scalars than accepted")
      ∧ zeroPointProj.Z = 0
      ∧ ¬validRep zeroPointProj
      ∧ (∀ q : PointProj, validRep q → q ≠ zeroPointProj)
      ∧ MSMTop (fun _ => ⟨0, 1, 1⟩) (List.replicate 257 0)
          = MSMTop (fun _ => ⟨1, 1, 1⟩) (List.replicate 257 0)) := by
  have h : 256 < (List.replicate 257 (0 : Nat)).length := by
    rw [List.length_replicate]
    norm_num
  exact ⟨h, C10_error_returns_zero_value _ _ _ h⟩

end GoIpa
